import Mathlib

/-
Shallow embedding of `util/graph_playbook.py`.

The program expands an Ansible playbook's role list into a registry of
roles (a worklist loop over per-role metadata files) and renders or lists
the result.  The embedding below translates the data model and the five
functions the claims are about: the `Role` class with its derived
attributes, `_parse_raw_list`, `_get_role_dependencies`, `expand_roles`
and `echo_services`.

Modelling conventions:
- YAML scalars relevant to the program are strings.  A raw declaration
  entry is either a bare string, a mapping (modelled as an association
  list of key/value pairs, so that key-presence tests and key lookups
  behave like Python `in` and `[]`), or a value of any other type (which
  `_parse_raw_list` silently skips, as the Python code does).
- The filesystem of role metadata files is a finite association list
  from role name to the parsed content of `<dir>/<name>/meta/main.yml`:
  absent entry = missing file, `MetaDoc.null` = YAML document that parses
  to `None`, `MetaDoc.doc d` = a mapping whose `dependencies` key holds
  `d` (`d = none` when the key is absent; Python's `meta.get` then
  defaults to `[]`, and a falsy empty mapping also yields `[]`, so the
  two agree observably).
- A Python exception (KeyError on a structured entry with no `role` key,
  propagated through the whole call) is modelled by `Option`/an `err`
  outcome.
- The `while` loop of `expand_roles` is modelled with an explicit fuel
  parameter; `ExpandOutcome.outOfFuel` marks runs that do not finish
  within the given fuel.  Python mutates the popped `Role` object in
  place and aliases it from the worklist and the registry; the claims
  only observe names and flags one level deep in `dependencies`, where
  the pure translation and the mutating original agree.
- A Python `dict` is an insertion-ordered association list; assignment
  to an existing key replaces the value in place, a new key is appended.
-/

def SERVICES : List String :=
  [("analytics_api"), ("certs"), ("ecommerce"), ("ecomworker"), ("edxapp"),
   ("elasticsearch"), ("forum"), ("insights"), ("memcache"), ("mongo"),
   ("mysql"), ("nginx"), ("notifier"), ("programs"), ("rabbitmq"),
   ("supervisor"), ("xqueue")]

def OPTIONAL_SERVICE_COLOR : String := "darkolivegreen1"

def SERVICE_COLOR : String := "cornflowerblue"

/-- A YAML mapping, as far as the program observes it: ordered key/value
pairs with string keys and string values. -/
abbrev YDict := List (String × String)

/-- Python `d[k]` as a total lookup: `none` models a `KeyError`. -/
def dictGet (d : YDict) (k : String) : Option String :=
  (d.find? (fun p => p.1 == k)).map Prod.snd

/-- Python `k in d`. -/
def dictHasKey (d : YDict) (k : String) : Bool :=
  d.any (fun p => p.1 == k)

/-- One entry of a raw role declaration list: a bare string, a mapping,
or a value of any other YAML type (skipped by the parser). -/
inductive RawEntry where
  | str (s : String)
  | map (entries : YDict)
  | other

/-- The `Role` class: name, `when`-conditional flag, and the dependency
list which is empty at construction and set during expansion. -/
inductive Role where
  | mk (name : String) (is_optional : Bool) (dependencies : List Role)

def Role.name : Role → String
  | Role.mk n _ _ => n

def Role.is_optional : Role → Bool
  | Role.mk _ o _ => o

def Role.dependencies : Role → List Role
  | Role.mk _ _ d => d

/-- `role.dependencies = deps` (the only mutation the program performs). -/
def Role.setDependencies : Role → List Role → Role
  | Role.mk n o _, deps => Role.mk n o deps

/-- `Role.__str__`: the name, with a suffix iff the role is optional. -/
def Role.str (r : Role) : String :=
  r.name ++ (if r.is_optional then " (optional)" else "")

/-- `Role.is_service`: membership of the name in `SERVICES`. -/
def Role.is_service (r : Role) : Bool :=
  SERVICES.contains r.name

/-- `Role.color`: starts `transparent`, overridden first by the optional
colour, else by the service colour. -/
def Role.color (r : Role) : String :=
  if r.is_optional then OPTIONAL_SERVICE_COLOR
  else if r.is_service then SERVICE_COLOR
  else "transparent"

/-- `Role.style`: `filled` iff the role is a service. -/
def Role.style (r : Role) : String :=
  if r.is_service then ("filled") else ("")

/-- Parsed content of a role's `meta/main.yml`: `null` for a document
that parses to `None`, otherwise a mapping whose `dependencies` key may
be absent. -/
inductive MetaDoc where
  | null
  | doc (dependencies : Option (List RawEntry))

/-- The role-metadata directory: role name ↦ parsed metadata file;
`none` models a missing file. -/
abbrev RoleDir := List (String × MetaDoc)

def lookupMeta (dir : RoleDir) (n : String) : Option MetaDoc :=
  (dir.find? (fun p => p.1 == n)).map Prod.snd

/-- `_parse_raw_list`: strings become non-optional Roles; mappings
become Roles named by their `role` key, optional iff a `when` key is
present (a missing `role` key raises, modelled by `none`); entries of
any other type are skipped. -/
def _parse_raw_list : List RawEntry → Option (List Role)
  | [] => some []
  | RawEntry.str s :: rest =>
      (_parse_raw_list rest).map (fun roles => Role.mk s false [] :: roles)
  | RawEntry.map d :: rest =>
      match dictGet d ("role") with
      | none => none
      | some nm =>
          (_parse_raw_list rest).map
            (fun roles => Role.mk nm (dictHasKey d ("when")) [] :: roles)
  | RawEntry.other :: rest => _parse_raw_list rest

/-- `_get_role_dependencies`: missing metadata file ⇒ `[]`; falsy parsed
document ⇒ `[]`; otherwise parse the `dependencies` key (default `[]`). -/
def _get_role_dependencies (role : Role) (role_dir : RoleDir) : Option (List Role) :=
  match lookupMeta role_dir role.name with
  | none => some []
  | some MetaDoc.null => some []
  | some (MetaDoc.doc d) => _parse_raw_list (d.getD [])

/-- The role registry: Python `dict` as an insertion-ordered association
list. -/
abbrev Registry := List (String × Role)

/-- Python `roles[k] = v`: replace in place if the key exists, else
append. -/
def dictSet (roles : Registry) (k : String) (v : Role) : Registry :=
  if roles.any (fun p => p.1 == k) then
    roles.map (fun p => if p.1 == k then (k, v) else p)
  else
    roles ++ [(k, v)]

/-- Python `roles[k]` on the registry. -/
def lookupRole (roles : Registry) (k : String) : Option Role :=
  (roles.find? (fun p => p.1 == k)).map Prod.snd

/-- Result of running the `while` loop of `expand_roles` with a given
amount of fuel. -/
inductive ExpandOutcome where
  | ok (roles : Registry)
  | err
  | outOfFuel

/-- The `while role_list:` loop of `expand_roles`: pop the front role,
resolve its dependencies, store it in the registry under its name, and
extend the worklist with the dependency Roles. -/
def expand_loop (role_dir : RoleDir) : Nat → List Role → Registry → ExpandOutcome
  | _, [], roles => ExpandOutcome.ok roles
  | 0, _ :: _, _ => ExpandOutcome.outOfFuel
  | Nat.succ fuel, role :: rest, roles =>
      match _get_role_dependencies role role_dir with
      | none => ExpandOutcome.err
      | some deps =>
          expand_loop role_dir fuel (rest ++ deps)
            (dictSet roles role.name (role.setDependencies deps))

/-- `expand_roles`: parse the raw list, then run the worklist loop with
an empty registry. -/
def expand_roles (fuel : Nat) (raw_list : List RawEntry) (role_dir : RoleDir) : ExpandOutcome :=
  match _parse_raw_list raw_list with
  | none => ExpandOutcome.err
  | some role_list => expand_loop role_dir fuel role_list []

/-- `echo_services`: the lines printed, in order — registry keys that
are services, sorted, each rendered via `Role.__str__` of its registry
entry. -/
def echo_services (roles : Registry) : List String :=
  let relevant_roles := (roles.map Prod.fst).filter (fun k => SERVICES.contains k)
  (relevant_roles.mergeSort (fun a b => decide (a ≤ b))).filterMap
    (fun k => (lookupRole roles k).map Role.str)

/-
Theorems.  Each claim theorem is preceded by a doc comment naming the
claim; helper lemmas come first.
-/

theorem role_setDependencies_eq (r : Role) (deps : List Role) :
    r.setDependencies deps = Role.mk r.name r.is_optional deps := by
  cases r; rfl

/-- C4: `_parse_raw_list` turns a bare-string entry into a non-optional
Role of that name, and a mapping entry into a Role named by its `role`
key whose optional flag is set exactly when a `when` key is present,
regardless of the value stored under `when`. -/
theorem parse_raw_list_entry_shapes :
    (∀ (s : String) (l : List RawEntry),
      _parse_raw_list (RawEntry.str s :: l) =
        (_parse_raw_list l).map (fun roles => Role.mk s false [] :: roles)) ∧
    (∀ (d : YDict) (nm : String) (l : List RawEntry),
      dictGet d ("role") = some nm →
      _parse_raw_list (RawEntry.map d :: l) =
        (_parse_raw_list l).map
          (fun roles => Role.mk nm (dictHasKey d ("when")) [] :: roles)) ∧
    (∀ d : YDict, dictHasKey d ("when") = true ↔ ("when") ∈ d.map Prod.fst) := by
  refine ⟨fun s l => rfl, fun d nm l h => ?_, fun d => ?_⟩
  · simp only [_parse_raw_list, h]
  · constructor
    · intro hk
      rcases List.any_eq_true.mp hk with ⟨p, hp, he⟩
      exact List.mem_map.mpr ⟨p, hp, (beq_iff_eq.mp he)⟩
    · intro hk
      rcases List.mem_map.mp hk with ⟨p, hp, he⟩
      exact List.any_eq_true.mpr ⟨p, hp, beq_iff_eq.mpr he⟩

/-- Witness for C4 at a concrete mapping entry: the `role` key names the
role and the presence of `when` (whatever its value) makes it optional. -/
theorem parse_raw_list_entry_shapes_witness :
    dictGet [(("role"), ("x")), (("when"), ("cond"))] ("role") = some ("x") ∧
    _parse_raw_list [RawEntry.map [(("role"), ("x")), (("when"), ("cond"))]] =
      some [Role.mk ("x") true []] := by
  refine ⟨rfl, ?_⟩
  have h := parse_raw_list_entry_shapes.2.1
    [(("role"), ("x")), (("when"), ("cond"))] ("x") [] rfl
  simpa [_parse_raw_list, dictHasKey] using h

/-- C5: `_get_role_dependencies` yields an empty dependency list, with no
error, for a role whose metadata file is absent and for one whose file
parses to null; otherwise it parses the `dependencies` key of the
document, defaulting to the empty list when the key is absent. -/
theorem get_role_dependencies_cases :
    ∀ (role : Role) (role_dir : RoleDir),
      (lookupMeta role_dir role.name = none →
        _get_role_dependencies role role_dir = some []) ∧
      (lookupMeta role_dir role.name = some MetaDoc.null →
        _get_role_dependencies role role_dir = some []) ∧
      (∀ d, lookupMeta role_dir role.name = some (MetaDoc.doc d) →
        _get_role_dependencies role role_dir = _parse_raw_list (d.getD [])) ∧
      (lookupMeta role_dir role.name = some (MetaDoc.doc none) →
        _get_role_dependencies role role_dir = some []) := by
  intro role role_dir
  refine ⟨fun h => ?_, fun h => ?_, fun d h => ?_, fun h => ?_⟩ <;>
    simp [_get_role_dependencies, h, _parse_raw_list]

/-- Witness for C5 at a concrete input: a role with no metadata file in
an empty role directory resolves to no dependencies. -/
theorem get_role_dependencies_cases_witness :
    lookupMeta [] (Role.mk ("mysql") true []).name = none ∧
    _get_role_dependencies (Role.mk ("mysql") true []) [] = some [] :=
  ⟨rfl, (get_role_dependencies_cases (Role.mk ("mysql") true []) []).1 rfl⟩

/-- C7: the fill style is `filled` exactly for roles whose name is in the
fixed service set, and empty otherwise, independently of the optional
flag. -/
theorem role_style_filled_iff_service :
    ∀ (n : String) (opt : Bool) (deps : List Role),
      ((Role.mk n opt deps).style = "filled" ↔
        (Role.mk n opt deps).is_service = true) ∧
      ((Role.mk n opt deps).is_service = true ↔ n ∈ SERVICES) ∧
      ((Role.mk n opt deps).is_service = false →
        (Role.mk n opt deps).style = "") ∧
      (Role.mk n opt deps).style = (Role.mk n (!opt) deps).style := by
  intro n opt deps
  refine ⟨?_, ?_, fun h => ?_, ?_⟩
  · cases h : (Role.mk n opt deps).is_service <;> simp [Role.style, h]
  · simp [Role.is_service, Role.name, List.elem_iff]
  · simp [Role.style, h]
  · rfl

/-- Witness for C7: a non-service optional role has the empty fill
style. -/
theorem role_style_filled_iff_service_witness :
    (Role.mk ("blah") true []).is_service = false ∧
    (Role.mk ("blah") true []).style = "" :=
  ⟨rfl, (role_style_filled_iff_service ("blah") true []).2.2.1 rfl⟩

/-- C8: the display colour gives priority to optionality (the optional
colour, service or not), then to service membership (the service
colour), and is transparent otherwise; the three colours are pairwise
distinct. -/
theorem role_color_priority :
    ∀ (n : String) (opt : Bool) (deps : List Role),
      (opt = true → (Role.mk n opt deps).color = OPTIONAL_SERVICE_COLOR) ∧
      (opt = false → (Role.mk n opt deps).is_service = true →
        (Role.mk n opt deps).color = SERVICE_COLOR) ∧
      (opt = false → (Role.mk n opt deps).is_service = false →
        (Role.mk n opt deps).color = "transparent") ∧
      (OPTIONAL_SERVICE_COLOR ≠ SERVICE_COLOR ∧
        OPTIONAL_SERVICE_COLOR ≠ "transparent" ∧
        SERVICE_COLOR ≠ "transparent") := by
  intro n opt deps
  refine ⟨fun h => ?_, fun h hs => ?_, fun h hs => ?_, by decide, by decide, by decide⟩
  · subst h; rfl
  · subst h; simp [Role.color, Role.is_optional, hs]
  · subst h; simp [Role.color, Role.is_optional, hs]

/-- Witness for C8: an optional service role gets the optional colour,
not the service colour ("mysql" is in the service set). -/
theorem role_color_priority_witness :
    (Role.mk ("mysql") true []).color = OPTIONAL_SERVICE_COLOR ∧
    (Role.mk ("mysql") true []).is_service = true :=
  ⟨(role_color_priority ("mysql") true []).1 rfl, rfl⟩

/-
C10: concrete input showing that the Role objects in a registry entry's
dependency list are the ones parsed from that entry's own metadata, not
the registry's entries for those names.  Role `P`'s metadata declares
`x` once with a `when` conditional and once as a bare string; the
registry entry for `x` is the last-processed (non-optional) occurrence,
while `P`'s dependency list still holds the optional occurrence.
-/

def c10_dir : RoleDir :=
  [(("P"), MetaDoc.doc (some
      [RawEntry.map [(("role"), ("x")), (("when"), ("w"))],
       RawEntry.str ("x")]))]

def c10_dep : Role := Role.mk ("x") true []

def c10_reg : Registry :=
  [(("P"), Role.mk ("P") false [Role.mk ("x") true [], Role.mk ("x") false []]),
   (("x"), Role.mk ("x") false [])]

/-- C10: on the input above, expansion succeeds, a registry entry (`P`)
holds a dependency Role for `x` whose optional flag is `true`, while the
registry entry stored under the name `x` has optional flag `false`. -/
theorem registry_dependency_flag_divergence :
    expand_roles 3 [RawEntry.str ("P")] c10_dir = ExpandOutcome.ok c10_reg ∧
    ∃ p ∈ c10_reg, c10_dep ∈ p.2.dependencies ∧
      ∃ q ∈ c10_reg, q.1 = c10_dep.name ∧
        q.2.is_optional ≠ c10_dep.is_optional := by
  refine ⟨rfl,
    ⟨(("P"), Role.mk ("P") false [Role.mk ("x") true [], Role.mk ("x") false []]),
      ?_, ?_, (("x"), Role.mk ("x") false []), ?_, rfl, ?_⟩⟩
  · simp [c10_reg]
  · simp [c10_dep, Role.dependencies]
  · simp [c10_reg]
  · simp [c10_dep, Role.is_optional]

/-
C1: a second expansion function written after the specification's own
wording of the algorithm (§4.2, steps 1-4): parse the declarations, seed
a FIFO worklist, and while it is non-empty remove the front Role, set
its dependency list from its metadata, store it in the registry keyed by
its name (overwriting any prior entry: the registry is modelled here as
a plain function from names to Roles), and append every parsed
dependency Role to the back of the worklist; return the registry once
the worklist is empty.
-/

abbrev SpecRegistry := String → Option Role

inductive SpecOutcome where
  | ok (registry : SpecRegistry)
  | err
  | outOfFuel

/-- Spec §4.2 steps 3b-3c: the front role's dependency list, from its
metadata file. -/
def spec_resolve_dependencies (role_dir : RoleDir) (n : String) : Option (List Role) :=
  match lookupMeta role_dir n with
  | none => some []
  | some MetaDoc.null => some []
  | some (MetaDoc.doc d) => _parse_raw_list (d.getD [])

/-- Spec §4.2 step 3: one FIFO round per unit of fuel. -/
def spec_expand_go (role_dir : RoleDir) : Nat → List Role → SpecRegistry → SpecOutcome
  | _, [], reg => SpecOutcome.ok reg
  | 0, _ :: _, _ => SpecOutcome.outOfFuel
  | Nat.succ fuel, r :: wl, reg =>
      match spec_resolve_dependencies role_dir r.name with
      | none => SpecOutcome.err
      | some deps =>
          spec_expand_go role_dir fuel (wl ++ deps)
            (fun n => if n = r.name then some (Role.mk r.name r.is_optional deps)
                      else reg n)

/-- Spec §4.2 steps 1-2 and 4: parse, seed the worklist, run with an
empty registry. -/
def spec_expand (fuel : Nat) (raw_list : List RawEntry) (role_dir : RoleDir) : SpecOutcome :=
  match _parse_raw_list raw_list with
  | none => SpecOutcome.err
  | some roles => spec_expand_go role_dir fuel roles (fun _ => none)

/-- The implementation outcome refines the spec outcome: same
constructor, and for a success the association-list registry and the
functional registry agree on every name. -/
def OutcomeMatches : ExpandOutcome → SpecOutcome → Prop
  | ExpandOutcome.ok reg, SpecOutcome.ok sreg => ∀ n, lookupRole reg n = sreg n
  | ExpandOutcome.err, SpecOutcome.err => True
  | ExpandOutcome.outOfFuel, SpecOutcome.outOfFuel => True
  | _, _ => False

theorem lookupRole_map_set_ne (roles : Registry) (k : String) (v : Role)
    (n : String) (hne : n ≠ k) :
    lookupRole (roles.map (fun p => if p.1 == k then (k, v) else p)) n =
      lookupRole roles n := by
  induction roles with
  | nil => rfl
  | cons p rest ih =>
      by_cases hp : p.1 == k
      · have hpk : p.1 = k := beq_iff_eq.mp hp
        simp only [List.map_cons, hp, if_pos]
        simp only [lookupRole, List.find?]
        have h1 : ((k, v).1 == n) = false := beq_eq_false_iff_ne.mpr (fun h => hne h.symm)
        have h2 : (p.1 == n) = false := beq_eq_false_iff_ne.mpr (by rw [hpk]; exact fun h => hne h.symm)
        rw [h1, h2]
        exact ih
      · simp only [List.map_cons, hp, if_neg, Bool.false_eq_true, not_false_iff]
        simp only [lookupRole, List.find?]
        cases hpn : (p.1 == n)
        · exact ih
        · rfl

theorem lookupRole_map_set_self (roles : Registry) (k : String) (v : Role)
    (h : roles.any (fun p => p.1 == k) = true) :
    lookupRole (roles.map (fun p => if p.1 == k then (k, v) else p)) k =
      some v := by
  induction roles with
  | nil => simp at h
  | cons p rest ih =>
      by_cases hp : p.1 == k
      · simp only [List.map_cons, hp, if_pos]
        simp only [lookupRole, List.find?, beq_self_eq_true]
        rfl
      · simp only [List.any_cons, hp, Bool.false_or] at h
        simp only [List.map_cons, hp, if_neg, Bool.false_eq_true, not_false_iff]
        simp only [lookupRole, List.find?, hp]
        exact ih h

/-- `dictSet` behaves like a pointwise function update under `lookupRole`. -/
theorem lookupRole_dictSet (roles : Registry) (k : String) (v : Role) (n : String) :
    lookupRole (dictSet roles k v) n =
      if n = k then some v else lookupRole roles n := by
  unfold dictSet
  by_cases hany : roles.any (fun p => p.1 == k) = true
  · rw [if_pos hany]
    by_cases hn : n = k
    · subst hn; rw [if_pos rfl]; exact lookupRole_map_set_self roles n v hany
    · rw [if_neg hn]; exact lookupRole_map_set_ne roles k v n hn
  · rw [if_neg hany]
    unfold lookupRole
    rw [List.find?_append]
    by_cases hn : n = k
    · subst hn
      rw [if_pos rfl]
      have hnone : roles.find? (fun p => p.1 == n) = none :=
        List.find?_eq_none.mpr (by
          intro x hx hxn
          exact hany (List.any_eq_true.mpr ⟨x, hx, hxn⟩))
      rw [hnone]
      simp [List.find?]
    · rw [if_neg hn]
      have h1 : List.find? (fun p => p.1 == n) [(k, v)] = none := by
        simp [List.find?, beq_eq_false_iff_ne.mpr (fun h => hn h.symm)]
      rw [h1, Option.or_none]

/-- C1: `expand_roles` follows the breadth-first FIFO worklist algorithm
of the specification: for every fuel bound, initial declaration list and
role directory, it errs, runs out of fuel, or succeeds exactly when the
spec-level algorithm does, and on success the registry it returns agrees
with the spec-level registry on every role name. -/
theorem expand_roles_follows_spec :
    ∀ (fuel : Nat) (raw_list : List RawEntry) (role_dir : RoleDir),
      OutcomeMatches (expand_roles fuel raw_list role_dir)
        (spec_expand fuel raw_list role_dir) := by
  have hloop : ∀ (role_dir : RoleDir) (fuel : Nat) (wl : List Role)
      (reg : Registry) (sreg : SpecRegistry),
      (∀ n, lookupRole reg n = sreg n) →
      OutcomeMatches (expand_loop role_dir fuel wl reg)
        (spec_expand_go role_dir fuel wl sreg) := by
    intro role_dir fuel
    induction fuel with
    | zero =>
        intro wl reg sreg hagree
        cases wl with
        | nil => exact hagree
        | cons r rest => exact trivial
    | succ fuel ih =>
        intro wl reg sreg hagree
        cases wl with
        | nil => exact hagree
        | cons r rest =>
            have hres : spec_resolve_dependencies role_dir r.name =
                _get_role_dependencies r role_dir := by
              cases r; rfl
            simp only [expand_loop, spec_expand_go, hres]
            cases hdeps : _get_role_dependencies r role_dir with
            | none => exact trivial
            | some deps =>
                apply ih
                intro n
                rw [role_setDependencies_eq, lookupRole_dictSet, hagree n]
  intro fuel raw_list role_dir
  unfold expand_roles spec_expand
  cases hp : _parse_raw_list raw_list with
  | none => exact trivial
  | some roles =>
      apply hloop
      intro n
      rfl

/-
C9: the returned registry is dependency-closed.  Loop invariant: every
dependency of every registry entry is named either in the registry or in
the remaining worklist.
-/

theorem mem_dictSet (roles : Registry) (k : String) (v : Role) (p : String × Role)
    (hp : p ∈ dictSet roles k v) : p = (k, v) ∨ p ∈ roles := by
  unfold dictSet at hp
  by_cases hany : roles.any (fun q => q.1 == k) = true
  · rw [if_pos hany] at hp
    rcases List.mem_map.mp hp with ⟨q, hq, hqe⟩
    by_cases hqk : q.1 == k
    · left; rw [← hqe, if_pos hqk]
    · right; rw [← hqe, if_neg hqk]; exact hq
  · rw [if_neg hany] at hp
    rcases List.mem_append.mp hp with h | h
    · right; exact h
    · left; simpa using h
  
theorem mem_keys_dictSet_of_mem (roles : Registry) (k : String) (v : Role)
    (m : String) (hm : m ∈ roles.map Prod.fst) :
    m ∈ (dictSet roles k v).map Prod.fst := by
  unfold dictSet
  by_cases hany : roles.any (fun q => q.1 == k) = true
  · rw [if_pos hany]
    rcases List.mem_map.mp hm with ⟨q, hq, hqe⟩
    by_cases hqk : q.1 == k
    · refine List.mem_map.mpr ⟨(k, v), List.mem_map.mpr ⟨q, hq, by rw [if_pos hqk]⟩, ?_⟩
      rw [← hqe]
      exact (beq_iff_eq.mp hqk).symm
    · exact List.mem_map.mpr ⟨q, List.mem_map.mpr ⟨q, hq, by rw [if_neg hqk]⟩, hqe⟩
  · rw [if_neg hany, List.map_append]
    exact List.mem_append.mpr (Or.inl hm)

theorem self_mem_keys_dictSet (roles : Registry) (k : String) (v : Role) :
    k ∈ (dictSet roles k v).map Prod.fst := by
  unfold dictSet
  by_cases hany : roles.any (fun q => q.1 == k) = true
  · rw [if_pos hany]
    rcases List.any_eq_true.mp hany with ⟨q, hq, hqk⟩
    exact List.mem_map.mpr ⟨(k, v), List.mem_map.mpr ⟨q, hq, by rw [if_pos hqk]⟩, rfl⟩
  · rw [if_neg hany, List.map_append]
    exact List.mem_append.mpr (Or.inr (by simp))

theorem expand_loop_closed (role_dir : RoleDir) :
    ∀ (fuel : Nat) (wl : List Role) (reg0 reg : Registry),
      expand_loop role_dir fuel wl reg0 = ExpandOutcome.ok reg →
      (∀ p ∈ reg0, ∀ d ∈ p.2.dependencies,
        d.name ∈ reg0.map Prod.fst ∨ d.name ∈ wl.map Role.name) →
      ∀ p ∈ reg, ∀ d ∈ p.2.dependencies, d.name ∈ reg.map Prod.fst := by
  intro fuel
  induction fuel with
  | zero =>
      intro wl reg0 reg hrun hinv
      cases wl with
      | nil =>
          cases hrun
          intro p hp d hd
          rcases hinv p hp d hd with h | h
          · exact h
          · simp at h
      | cons r rest => cases hrun
  | succ fuel ih =>
      intro wl reg0 reg hrun hinv
      cases wl with
      | nil =>
          cases hrun
          intro p hp d hd
          rcases hinv p hp d hd with h | h
          · exact h
          · simp at h
      | cons r rest =>
          simp only [expand_loop] at hrun
          cases hdeps : _get_role_dependencies r role_dir with
          | none => rw [hdeps] at hrun; cases hrun
          | some deps =>
              rw [hdeps] at hrun
              refine ih (rest ++ deps) _ reg hrun ?_
              intro p hp d hd
              rcases mem_dictSet _ _ _ p hp with hpe | hpold
              · subst hpe
                right
                rw [role_setDependencies_eq] at hd
                simp only [Role.dependencies] at hd
                rw [List.map_append]
                exact List.mem_append.mpr (Or.inr (List.mem_map.mpr ⟨d, hd, rfl⟩))
              · rcases hinv p hpold d hd with h | h
                · exact Or.inl (mem_keys_dictSet_of_mem _ _ _ _ h)
                · simp only [List.map_cons] at h
                  rcases List.mem_cons.mp h with h | h
                  · left
                    rw [h]
                    exact self_mem_keys_dictSet _ _ _
                  · right
                    rw [List.map_append]
                    exact List.mem_append.mpr (Or.inl h)

/-- C9: on any terminating successful run, every Role in any registry
entry's dependency list has a name that is itself a key of the returned
registry. -/
theorem expand_registry_closed :
    ∀ (fuel : Nat) (raw_list : List RawEntry) (role_dir : RoleDir) (reg : Registry),
      expand_roles fuel raw_list role_dir = ExpandOutcome.ok reg →
      ∀ p ∈ reg, ∀ d ∈ p.2.dependencies, d.name ∈ reg.map Prod.fst := by
  intro fuel raw_list role_dir reg hrun
  unfold expand_roles at hrun
  cases hp : _parse_raw_list raw_list with
  | none => rw [hp] at hrun; cases hrun
  | some roles =>
      rw [hp] at hrun
      exact expand_loop_closed role_dir fuel roles [] reg hrun (by intro p hp; simp at hp)

def c9_dir : RoleDir := [(("edxapp"), MetaDoc.doc (some [RawEntry.str ("nginx")]))]

def c9_raw : List RawEntry :=
  [RawEntry.map [(("role"), ("edxapp"))],
   RawEntry.map [(("role"), ("mysql")), (("when"), ("some_condition"))]]

def c9_reg : Registry :=
  [(("edxapp"), Role.mk ("edxapp") false [Role.mk ("nginx") false []]),
   (("mysql"), Role.mk ("mysql") true []),
   (("nginx"), Role.mk ("nginx") false [])]

/-- Witness for C9 on the specification's worked scenario: `edxapp`
depends on `nginx`, and `nginx` indeed ends up as a registry key. -/
theorem expand_registry_closed_witness :
    expand_roles 3 c9_raw c9_dir = ExpandOutcome.ok c9_reg ∧
    (Role.mk ("nginx") false []).name ∈ c9_reg.map Prod.fst :=
  ⟨rfl, expand_registry_closed 3 c9_raw c9_dir c9_reg rfl
      ((("edxapp"), Role.mk ("edxapp") false [Role.mk ("nginx") false []]))
      (by simp [c9_reg])
      (Role.mk ("nginx") false []) (by simp [Role.dependencies])⟩

/-
C3: one registry entry per name, and the entry is the occurrence that
was processed last in worklist order.  `expand_processed` instruments
the loop with the sequence of roles in the order they are popped (each
with its resolved dependency list), so "processed last" can be stated.
-/

/-- The roles processed by `expand_loop`, in pop order, each with the
dependency list resolved for it. -/
def expand_processed (role_dir : RoleDir) : Nat → List Role → Option (List Role)
  | _, [] => some []
  | 0, _ :: _ => none
  | Nat.succ fuel, role :: rest =>
      match _get_role_dependencies role role_dir with
      | none => none
      | some deps =>
          (expand_processed role_dir fuel (rest ++ deps)).map
            (fun tr => role.setDependencies deps :: tr)

/-- The processing order of a whole `expand_roles` run. -/
def expand_roles_processed (fuel : Nat) (raw_list : List RawEntry)
    (role_dir : RoleDir) : Option (List Role) :=
  match _parse_raw_list raw_list with
  | none => none
  | some role_list => expand_processed role_dir fuel role_list

theorem expand_loop_ok_processed (role_dir : RoleDir) :
    ∀ (fuel : Nat) (wl : List Role) (reg0 reg : Registry),
      expand_loop role_dir fuel wl reg0 = ExpandOutcome.ok reg →
      ∃ tr, expand_processed role_dir fuel wl = some tr ∧
        reg = tr.foldl (fun acc r => dictSet acc r.name r) reg0 := by
  intro fuel
  induction fuel with
  | zero =>
      intro wl reg0 reg hrun
      cases wl with
      | nil => cases hrun; exact ⟨[], rfl, rfl⟩
      | cons r rest => cases hrun
  | succ fuel ih =>
      intro wl reg0 reg hrun
      cases wl with
      | nil => cases hrun; exact ⟨[], rfl, rfl⟩
      | cons r rest =>
          simp only [expand_loop] at hrun
          cases hdeps : _get_role_dependencies r role_dir with
          | none => rw [hdeps] at hrun; cases hrun
          | some deps =>
              rw [hdeps] at hrun
              rcases ih (rest ++ deps) _ reg hrun with ⟨tr, htr, hreg⟩
              refine ⟨r.setDependencies deps :: tr, ?_, ?_⟩
              · simp only [expand_processed, hdeps, htr]
                rfl
              · rw [List.foldl_cons]
                have hname : (r.setDependencies deps).name = r.name := by cases r; rfl
                rw [hname]
                exact hreg

theorem getLast?_cons_eq_or (a : α) (l : List α) :
    (a :: l).getLast? = l.getLast?.or (some a) := by
  induction l generalizing a with
  | nil => rfl
  | cons b l ih =>
      rw [List.getLast?_cons_cons, ih b]
      cases h : l.getLast? with
      | none => simp [List.getLast?_cons_cons, ih b, h]
      | some c => simp [List.getLast?_cons_cons, ih b, h]

theorem lookupRole_foldl_dictSet :
    ∀ (tr : List Role) (reg : Registry) (n : String),
      lookupRole (tr.foldl (fun acc r => dictSet acc r.name r) reg) n =
        ((tr.filter (fun r => r.name == n)).getLast?).or (lookupRole reg n) := by
  intro tr
  induction tr with
  | nil => intro reg n; rfl
  | cons r tr ih =>
      intro reg n
      rw [List.foldl_cons, ih, lookupRole_dictSet]
      by_cases hn : r.name == n
      · have hn' : n = r.name := (beq_iff_eq.mp hn).symm
        rw [if_pos hn']
        simp only [List.filter_cons, hn, if_pos]
        rw [getLast?_cons_eq_or]
        cases h : (tr.filter (fun r => r.name == n)).getLast? with
        | none => simp
        | some c => simp
      · have hn0 : (r.name == n) = false := by
          cases h : (r.name == n)
          · rfl
          · exact absurd h hn
        have hn' : n ≠ r.name := fun h => by simp [h] at hn0
        rw [if_neg hn']
        simp [List.filter_cons, hn0]

theorem keys_dictSet (roles : Registry) (k : String) (v : Role) :
    (dictSet roles k v).map Prod.fst =
      if roles.any (fun p => p.1 == k) then roles.map Prod.fst
      else roles.map Prod.fst ++ [k] := by
  unfold dictSet
  by_cases hany : roles.any (fun p => p.1 == k) = true
  · rw [if_pos hany, if_pos hany, List.map_map]
    apply List.map_congr_left
    intro p hp
    by_cases hpk : p.1 = k
    · simp [hpk]
    · simp [hpk]
  · rw [if_neg hany, if_neg hany, List.map_append]
    rfl

theorem nodup_keys_dictSet (roles : Registry) (k : String) (v : Role)
    (h : (roles.map Prod.fst).Nodup) :
    ((dictSet roles k v).map Prod.fst).Nodup := by
  rw [keys_dictSet]
  by_cases hany : roles.any (fun p => p.1 == k) = true
  · rw [if_pos hany]; exact h
  · rw [if_neg hany]
    rw [List.nodup_append]
    refine ⟨h, List.nodup_singleton k, ?_⟩
    intro m hm hmk
    rcases List.mem_map.mp hm with ⟨p, hp, hpe⟩
    rcases List.mem_singleton.mp hmk
    exact hany (List.any_eq_true.mpr ⟨p, hp, beq_iff_eq.mpr hpe⟩)

theorem expand_loop_ok_nodup (role_dir : RoleDir) :
    ∀ (fuel : Nat) (wl : List Role) (reg0 reg : Registry),
      expand_loop role_dir fuel wl reg0 = ExpandOutcome.ok reg →
      (reg0.map Prod.fst).Nodup → (reg.map Prod.fst).Nodup := by
  intro fuel
  induction fuel with
  | zero =>
      intro wl reg0 reg hrun h0
      cases wl with
      | nil => cases hrun; exact h0
      | cons r rest => cases hrun
  | succ fuel ih =>
      intro wl reg0 reg hrun h0
      cases wl with
      | nil => cases hrun; exact h0
      | cons r rest =>
          simp only [expand_loop] at hrun
          cases hdeps : _get_role_dependencies r role_dir with
          | none => rw [hdeps] at hrun; cases hrun
          | some deps =>
              rw [hdeps] at hrun
              exact ih (rest ++ deps) _ reg hrun (nodup_keys_dictSet _ _ _ h0)

/-- C3: after any terminating successful run, the registry keys are
pairwise distinct (each name maps to exactly one Role), and the entry
for each name is exactly the last Role of that name in processing
order — its optional flag and resolved dependency list are the
last-processed occurrence's. -/
theorem expand_registry_last_wins :
    ∀ (fuel : Nat) (raw_list : List RawEntry) (role_dir : RoleDir) (reg : Registry),
      expand_roles fuel raw_list role_dir = ExpandOutcome.ok reg →
      (reg.map Prod.fst).Nodup ∧
      ∃ tr, expand_roles_processed fuel raw_list role_dir = some tr ∧
        ∀ n, lookupRole reg n = (tr.filter (fun r => r.name == n)).getLast? := by
  intro fuel raw_list role_dir reg hrun
  unfold expand_roles at hrun
  unfold expand_roles_processed
  cases hp : _parse_raw_list raw_list with
  | none => rw [hp] at hrun; cases hrun
  | some roles =>
      rw [hp] at hrun
      refine ⟨expand_loop_ok_nodup role_dir fuel roles [] reg hrun (by simp), ?_⟩
      rcases expand_loop_ok_processed role_dir fuel roles [] reg hrun with ⟨tr, htr, hreg⟩
      refine ⟨tr, htr, fun n => ?_⟩
      rw [hreg, lookupRole_foldl_dictSet]
      have : lookupRole [] n = none := rfl
      rw [this, Option.or_none]

def c3_raw : List RawEntry :=
  [RawEntry.map [(("role"), ("foo")), (("when"), ("c"))], RawEntry.str ("foo")]

/-- Witness for C3: `foo` declared once optional and once not; the run
succeeds and the registry holds exactly one entry for `foo` (the keys of
the result are pairwise distinct). -/
theorem expand_registry_last_wins_witness :
    expand_roles 2 c3_raw [] = ExpandOutcome.ok [(("foo"), Role.mk ("foo") false [])] ∧
    (([(("foo"), Role.mk ("foo") false [])] : Registry).map Prod.fst).Nodup :=
  ⟨rfl, (expand_registry_last_wins 2 c3_raw [] [(("foo"), Role.mk ("foo") false [])] rfl).1⟩

/-
C6: the service lister.  The spec-worded §4.4 contract filters the
registry's entries to the known services, sorts them lexicographically
by name, and renders each entry; the code filters and sorts the key
list and then looks each key up.  The two agree on every registry whose
keys are distinct (every Python dict satisfies this).
-/

/-- Spec §4.4, as worded: filter the registry entries to the
known-services set, sort lexicographically, render each surviving Role. -/
def echo_services_specModel (roles : Registry) : List String :=
  ((roles.filter (fun p => SERVICES.contains p.1)).mergeSort
      (fun a b => decide (a.1 ≤ b.1))).map (fun p => Role.str p.2)

theorem lookupRole_of_mem_of_nodup :
    ∀ (roles : Registry) (p : String × Role), p ∈ roles →
      (roles.map Prod.fst).Nodup → lookupRole roles p.1 = some p.2 := by
  intro roles
  induction roles with
  | nil => intro p hp; cases hp
  | cons q rest ih =>
      intro p hp hnd
      rw [List.map_cons, List.nodup_cons] at hnd
      rcases List.mem_cons.mp hp with rfl | hp'
      · simp [lookupRole, List.find?]
      · have hq1 : (q.1 == p.1) = false := by
          cases h : (q.1 == p.1)
          · rfl
          · exact absurd (List.mem_map.mpr ⟨p, hp', (beq_iff_eq.mp h).symm⟩) hnd.1
        simp only [lookupRole, List.find?, hq1]
        exact ih p hp' hnd.2

/-- C6: on every registry with distinct keys, the lines emitted by
`echo_services` are exactly the spec's contract: the registry entries
whose name is in the fixed service set, sorted lexicographically by
name, each rendered by `Role.__str__` (name plus optional suffix);
entries outside the service set are excluded. -/
theorem echo_services_follows_spec :
    ∀ roles : Registry, (roles.map Prod.fst).Nodup →
      echo_services roles = echo_services_specModel roles := by
  intro roles hnd
  simp only [echo_services, echo_services_specModel]
  have h1 : (roles.map Prod.fst).filter (fun k => SERVICES.contains k) =
      (roles.filter (fun p => SERVICES.contains p.1)).map Prod.fst := by
    rw [List.filter_map]
    rfl
  rw [h1]
  have h2 : ((roles.filter (fun p => SERVICES.contains p.1)).map Prod.fst).mergeSort
        (fun a b => decide (a ≤ b)) =
      ((roles.filter (fun p => SERVICES.contains p.1)).mergeSort
        (fun a b => decide (a.1 ≤ b.1))).map Prod.fst :=
    (List.map_mergeSort (f := Prod.fst) (r := fun a b => decide (a.1 ≤ b.1))
      (s := fun a b => decide (a ≤ b))
      (l := roles.filter (fun p => SERVICES.contains p.1))
      (fun a _ b _ => rfl)).symm
  rw [h2]
  have h4 : ∀ (m : List (String × Role)),
      (∀ p ∈ m, lookupRole roles p.1 = some p.2) →
      (m.map Prod.fst).filterMap (fun k => (lookupRole roles k).map Role.str) =
        m.map (fun p => Role.str p.2) := by
    intro m
    induction m with
    | nil => intro _; rfl
    | cons p mm ih =>
        intro h
        simp only [List.map_cons, List.filterMap_cons, h p (List.mem_cons_self p mm)]
        rw [ih (fun q hq => h q (List.mem_cons_of_mem p hq))]
        rfl
  apply h4
  intro p hp
  refine lookupRole_of_mem_of_nodup roles p ?_ hnd
  have hp' : p ∈ roles.filter (fun p => SERVICES.contains p.1) :=
    (List.mergeSort_perm _ _).mem_iff.mp hp
  exact (List.mem_filter.mp hp').1

/-- Witness for C6 on a concrete registry: keys are distinct and the
emitted lines match the spec contract (here `edxapp`, then the optional
`mysql`, then `nginx`; the non-service key is dropped). -/
theorem echo_services_follows_spec_witness :
    ((c9_reg.map Prod.fst).Nodup) ∧
    echo_services c9_reg = echo_services_specModel c9_reg := by
  have hnd : (c9_reg.map Prod.fst).Nodup := by
    simp [c9_reg, List.nodup_cons]
  exact ⟨hnd, echo_services_follows_spec c9_reg hnd⟩

/-
C2: termination.  The dependency relation induced by a metadata
directory relates `m` to `n` when parsing `n`'s metadata yields a
dependency named `m`.  If it has no cycle the worklist loop terminates
(each pop strictly decreases the total dependency-tree weight of the
worklist); the two-role directory `cyc_dir` below re-declares a cycle on
every parse, and the loop runs out of any amount of fuel on it.
-/

/-- The names of the dependency Roles that resolving `n` produces
(empty when resolution would raise: such a pop ends the run at once, so
it never feeds the worklist). -/
def roleDepNames (role_dir : RoleDir) (n : String) : List String :=
  ((_get_role_dependencies (Role.mk n false []) role_dir).getD []).map Role.name

/-- `m` is declared as a dependency of `n` by the metadata directory. -/
abbrev DepRel (role_dir : RoleDir) (m n : String) : Prop :=
  m ∈ roleDepNames role_dir n

/-- The metadata mapping has no dependency cycle. -/
def AcyclicDir (role_dir : RoleDir) : Prop :=
  ∀ n, ¬ Relation.TransGen (DepRel role_dir) n n

/-- Two roles that re-declare each other as dependencies on every
parse. -/
def cyc_dir : RoleDir :=
  [(("A"), MetaDoc.doc (some [RawEntry.str ("B")])),
   (("B"), MetaDoc.doc (some [RawEntry.str ("A")]))]

theorem get_role_dependencies_only_name (r : Role) (role_dir : RoleDir) :
    _get_role_dependencies r role_dir =
      _get_role_dependencies (Role.mk r.name false []) role_dir := by
  cases r; rfl

theorem cyc_dir_loop :
    ∀ (fuel : Nat) (wl : List Role) (reg : Registry), wl ≠ [] →
      (∀ r ∈ wl, r.name = ("A") ∨ r.name = ("B")) →
      expand_loop cyc_dir fuel wl reg = ExpandOutcome.outOfFuel := by
  intro fuel
  induction fuel with
  | zero =>
      intro wl reg hne _
      cases wl with
      | nil => exact absurd rfl hne
      | cons r rest => rfl
  | succ fuel ih =>
      intro wl reg hne hmem
      cases wl with
      | nil => exact absurd rfl hne
      | cons r rest =>
          rcases hmem r (List.mem_cons_self r rest) with hn | hn
          · have hdeps : _get_role_dependencies r cyc_dir =
                some [Role.mk ("B") false []] := by
              rw [get_role_dependencies_only_name, hn]
              rfl
            simp only [expand_loop, hdeps]
            apply ih
            · simp
            · intro q hq
              rcases List.mem_append.mp hq with h | h
              · exact hmem q (List.mem_cons_of_mem r h)
              · rcases List.mem_singleton.mp h with rfl
                right; rfl
          · have hdeps : _get_role_dependencies r cyc_dir =
                some [Role.mk ("A") false []] := by
              rw [get_role_dependencies_only_name, hn]
              rfl
            simp only [expand_loop, hdeps]
            apply ih
            · simp
            · intro q hq
              rcases List.mem_append.mp hq with h | h
              · exact hmem q (List.mem_cons_of_mem r h)
              · rcases List.mem_singleton.mp h with rfl
                left; rfl

/-- Every name that can appear in the worklist after a pop: the keys of
the directory and every dependency name any key resolves to. -/
def dirNames (role_dir : RoleDir) : List String :=
  role_dir.map Prod.fst ++
    (role_dir.map Prod.fst).flatMap (fun n => roleDepNames role_dir n)

theorem roleDepNames_eq_nil_of_no_meta (role_dir : RoleDir) (n : String)
    (hn : lookupMeta role_dir n = none) : roleDepNames role_dir n = [] := by
  unfold roleDepNames _get_role_dependencies
  simp [Role.name, hn]

theorem DepRel_src_mem (role_dir : RoleDir) (m n : String)
    (h : DepRel role_dir m n) : m ∈ dirNames role_dir := by
  have hkey : n ∈ role_dir.map Prod.fst := by
    by_contra hk
    have hfind : role_dir.find? (fun p => p.1 == n) = none :=
      List.find?_eq_none.mpr
        (fun p hp hpn => hk (List.mem_map.mpr ⟨p, hp, beq_iff_eq.mp hpn⟩))
    have hnone : lookupMeta role_dir n = none := by
      unfold lookupMeta
      rw [hfind]
      rfl
    have h' : m ∈ roleDepNames role_dir n := h
    rw [roleDepNames_eq_nil_of_no_meta role_dir n hnone] at h'
    exact absurd h' (List.not_mem_nil m)
  exact List.mem_append.mpr (Or.inr (List.mem_flatMap.mpr ⟨n, hkey, h⟩))

theorem wf_DepRel_of_acyclic (role_dir : RoleDir) (hacyc : AcyclicDir role_dir) :
    WellFounded (DepRel role_dir) := by
  have hfin : ({x | x ∈ dirNames role_dir} : Set String).Finite :=
    List.finite_toSet (dirNames role_dir)
  haveI hfinS : Finite ({x | x ∈ dirNames role_dir} : Set String) := hfin.to_subtype
  let R : ({x | x ∈ dirNames role_dir} : Set String) →
      ({x | x ∈ dirNames role_dir} : Set String) → Prop :=
    fun a b => Relation.TransGen (DepRel role_dir) a.1 b.1
  haveI : IsTrans _ R := ⟨fun a b c hab hbc => hab.trans hbc⟩
  haveI : IsIrrefl _ R := ⟨fun a ha => hacyc a.1 ha⟩
  have hwfR : WellFounded R := Finite.wellFounded_of_trans_of_irrefl R
  have haccT : ∀ a : ({x | x ∈ dirNames role_dir} : Set String),
      Acc (Relation.TransGen (DepRel role_dir)) a.1 := by
    intro a
    refine hwfR.induction
      (C := fun a => Acc (Relation.TransGen (DepRel role_dir)) a.1) a ?_
    intro x ihx
    constructor
    intro m hm
    have hmS : m ∈ dirNames role_dir := by
      rcases Relation.TransGen.head'_iff.mp hm with ⟨b, hb, _⟩
      exact DepRel_src_mem role_dir m b hb
    exact ihx ⟨m, hmS⟩ hm
  constructor
  intro n
  constructor
  intro m hm
  have hmS : m ∈ dirNames role_dir := DepRel_src_mem role_dir m n hm
  exact Subrelation.accessible
    (fun h => Relation.TransGen.single h) (haccT ⟨m, hmS⟩)

/-- The size of the dependency tree below a role name; well-defined as
soon as the dependency relation is well-founded. -/
def depWeight (role_dir : RoleDir) (hwf : WellFounded (DepRel role_dir)) : String → Nat :=
  hwf.fix (fun n ih =>
    1 + ((roleDepNames role_dir n).attach.map (fun d => ih d.1 d.2)).sum)

theorem depWeight_eq (role_dir : RoleDir) (hwf : WellFounded (DepRel role_dir))
    (n : String) :
    depWeight role_dir hwf n =
      1 + ((roleDepNames role_dir n).map (depWeight role_dir hwf)).sum := by
  unfold depWeight
  rw [WellFounded.fix_eq]
  congr 1
  exact congrArg List.sum (List.attach_map_coe _ _)

theorem depWeight_pos (role_dir : RoleDir) (hwf : WellFounded (DepRel role_dir))
    (n : String) : 1 ≤ depWeight role_dir hwf n := by
  rw [depWeight_eq]
  omega

/-- Total dependency-tree weight of the worklist. -/
def worklistWeight (role_dir : RoleDir) (hwf : WellFounded (DepRel role_dir))
    (wl : List Role) : Nat :=
  (wl.map (fun r => depWeight role_dir hwf r.name)).sum

theorem deps_weight_sum (role_dir : RoleDir) (hwf : WellFounded (DepRel role_dir))
    (r : Role) (deps : List Role)
    (hdeps : _get_role_dependencies r role_dir = some deps) :
    depWeight role_dir hwf r.name =
      1 + (deps.map (fun d => depWeight role_dir hwf d.name)).sum := by
  have hnames : roleDepNames role_dir r.name = deps.map Role.name := by
    unfold roleDepNames
    rw [← get_role_dependencies_only_name, hdeps]
    rfl
  rw [depWeight_eq, hnames, List.map_map]
  rfl

theorem expand_loop_terminates (role_dir : RoleDir)
    (hwf : WellFounded (DepRel role_dir)) :
    ∀ (fuel : Nat) (wl : List Role) (reg : Registry),
      worklistWeight role_dir hwf wl ≤ fuel →
      expand_loop role_dir fuel wl reg ≠ ExpandOutcome.outOfFuel := by
  intro fuel
  induction fuel with
  | zero =>
      intro wl reg hle
      cases wl with
      | nil => intro h; exact ExpandOutcome.noConfusion h
      | cons r rest =>
          exfalso
          have h1 := depWeight_pos role_dir hwf r.name
          have h2 : worklistWeight role_dir hwf (r :: rest) =
              depWeight role_dir hwf r.name +
                worklistWeight role_dir hwf rest := by
            simp [worklistWeight]
          omega
  | succ fuel ih =>
      intro wl reg hle
      cases wl with
      | nil => intro h; exact ExpandOutcome.noConfusion h
      | cons r rest =>
          simp only [expand_loop]
          cases hdeps : _get_role_dependencies r role_dir with
          | none => intro h; exact ExpandOutcome.noConfusion h
          | some deps =>
              apply ih
              have hsum := deps_weight_sum role_dir hwf r deps hdeps
              have hw : worklistWeight role_dir hwf (r :: rest) =
                  depWeight role_dir hwf r.name +
                    worklistWeight role_dir hwf rest := by
                simp [worklistWeight]
              have hw2 : worklistWeight role_dir hwf (rest ++ deps) =
                  worklistWeight role_dir hwf rest +
                    (deps.map (fun d => depWeight role_dir hwf d.name)).sum := by
                simp [worklistWeight, List.map_append, List.sum_append]
              omega

/-- C2: on every acyclic metadata directory the expansion loop
terminates (some fuel suffices), while on the cyclic directory
`cyc_dir`, whose two roles re-declare each other on every parse,
expansion starting from `A` exhausts every amount of fuel: there is no
cycle guard, every parsed dependency is re-enqueued. -/
theorem expand_roles_termination_dichotomy :
    (∀ (role_dir : RoleDir) (raw_list : List RawEntry), AcyclicDir role_dir →
      ∃ fuel, expand_roles fuel raw_list role_dir ≠ ExpandOutcome.outOfFuel) ∧
    (∀ fuel, expand_roles fuel [RawEntry.str ("A")] cyc_dir =
      ExpandOutcome.outOfFuel) := by
  constructor
  · intro role_dir raw_list hacyc
    cases hp : _parse_raw_list raw_list with
    | none =>
        refine ⟨0, ?_⟩
        unfold expand_roles
        rw [hp]
        intro h
        exact ExpandOutcome.noConfusion h
    | some roles =>
        have hwf := wf_DepRel_of_acyclic role_dir hacyc
        refine ⟨worklistWeight role_dir hwf roles, ?_⟩
        unfold expand_roles
        rw [hp]
        exact expand_loop_terminates role_dir hwf _ roles [] le_rfl
  · intro fuel
    unfold expand_roles
    have hp : _parse_raw_list [RawEntry.str ("A")] =
        some [Role.mk ("A") false []] := rfl
    rw [hp]
    apply cyc_dir_loop
    · simp
    · intro r hr
      rcases List.mem_singleton.mp hr with rfl
      left; rfl

theorem acyclic_nil_dir : AcyclicDir [] := by
  intro n h
  rcases Relation.TransGen.head'_iff.mp h with ⟨b, hb, _⟩
  have hb' : n ∈ roleDepNames [] b := hb
  have hnil : roleDepNames [] b = [] := rfl
  rw [hnil] at hb'
  exact absurd hb' (List.not_mem_nil n)

/-- Witness for C2's acyclic half at the empty metadata directory: it is
acyclic and expansion of a single role terminates. -/
theorem expand_roles_termination_dichotomy_witness :
    AcyclicDir [] ∧
    ∃ fuel, expand_roles fuel [RawEntry.str ("x")] [] ≠ ExpandOutcome.outOfFuel :=
  ⟨acyclic_nil_dir,
    expand_roles_termination_dichotomy.1 [] [RawEntry.str ("x")] acyclic_nil_dir⟩
